import Mathlib

/-
Verification of the cxxprops property-file parser/renderer
(src/cxxprops.h) in a shallow embedding.

Strings are modelled as `List Char` (byte-level fidelity is not needed:
all characters the code inspects are 7-bit, and std::string operations
act index-wise exactly like `List Char` operations used here).

Every definition in namespace Cxxprops mirrors the member function of
class Properties with the same name; the nested while-loops of
`parse` (multi-line continuation) and `preprocess` (template capture)
are rendered as explicit scanning modes so that all recursion is
structural and the definitions evaluate inside the kernel.
-/

namespace Cxxprops

/-- The whitespace set of the source: `const std::string WS = " \n\r\t\v\f"`. -/
def WS : List Char := [' ', '\n', '\r', '\t', '\x0b', '\x0c']

/-- Model of `std::string::find_first_not_of(set)`: index of the first
character not in `set`, `none` for npos. -/
def find_first_not_of (set : List Char) : List Char → Option Nat
  | [] => none
  | c :: rest => if c ∈ set then (find_first_not_of set rest).map (· + 1) else some 0

/-- Model of `std::string::find_last_not_of(set)`: index of the last
character not in `set`, `none` for npos. -/
def find_last_not_of (set : List Char) : List Char → Option Nat
  | [] => none
  | c :: rest =>
    match find_last_not_of set rest with
    | some i => some (i + 1)
    | none => if c ∈ set then none else some 0

/-- Model of `std::string::find_first_of(set)`: index of the first
character in `set`, `none` for npos. -/
def find_first_of (set : List Char) : List Char → Option Nat
  | [] => none
  | c :: rest => if c ∈ set then some 0 else (find_first_of set rest).map (· + 1)

/-- Properties::trimleft, returning the trimmed string together with what
was trimmed off. The C++ passes `trimmed` as an output parameter that is
NOT assigned when the string is all whitespace; the `Option` records
whether the output parameter was assigned. -/
def trimleft2 (str : List Char) : List Char × Option (List Char) :=
  match find_first_not_of WS str with
  | none => ([], none)
  | some s => (str.drop s, some (str.take s))

/-- Properties::trimright with the output parameter, like `trimleft2`. -/
def trimright2 (str : List Char) : List Char × Option (List Char) :=
  match find_last_not_of WS str with
  | none => ([], none)
  | some s => (str.take (s + 1), some (str.drop (s + 1)))

/-- Properties::trimright, single-argument overload (output discarded). -/
def trimright1 (str : List Char) : List Char :=
  (trimright2 str).1

/-- Properties::trim(str, trimmedLeft, trimmedRight):
`trimright(trimleft(str, trimmedLeft), trimmedRight)`. Returns
(core, trimmedLeft?, trimmedRight?). -/
def trim2 (str : List Char) : List Char × Option (List Char) × Option (List Char) :=
  let l := trimleft2 str
  let r := trimright2 l.1
  (r.1, l.2, r.2)

/-- Properties::trim, single-argument overload. -/
def trim1 (str : List Char) : List Char :=
  (trim2 str).1

/-- Properties::endswith: the last non-whitespace character is `ch`. -/
def endswith (str : List Char) (ch : Char) : Bool :=
  match find_last_not_of WS str with
  | none => false
  | some pos => str.getD pos ' ' == ch

/-- Properties::isComment: first non-whitespace character is `#` or `!`. -/
def isComment (str : List Char) : Bool :=
  match find_first_not_of WS str with
  | none => false
  | some pos => str.getD pos ' ' == '#' || str.getD pos ' ' == '!'

/-- Properties::isBlockStart: first non-whitespace character is an opening
brace (the remainder of the line is not inspected by the code). -/
def isBlockStart (str : List Char) : Bool :=
  match find_first_not_of WS str with
  | none => false
  | some pos => str.getD pos ' ' == '\x7b'

/-- Properties::isBlockEnd: first non-whitespace character is a closing
brace (the remainder of the line is not inspected by the code). -/
def isBlockEnd (str : List Char) : Bool :=
  match find_first_not_of WS str with
  | none => false
  | some pos => str.getD pos ' ' == '\x7d'

/-- Properties::isMultiLine: right-trimmed line ends with a backslash. -/
def isMultiLine (str : List Char) : Bool :=
  endswith str '\\'

/-- Properties::isEmptyLine: `std::all_of(str.begin(), str.end(), isspace)`;
`isspace` in the C locale accepts exactly the characters of `WS`. -/
def isEmptyLine (str : List Char) : Bool :=
  str.all (fun c => decide (c ∈ WS))

/-- Properties::isTemplateVariable: first non-whitespace character is `%`. -/
def isTemplateVariable (str : List Char) : Bool :=
  match find_first_not_of WS str with
  | none => false
  | some pos => str.getD pos ' ' == '%'

/-- Properties::isTemplateStart: first non-whitespace character is `<`. -/
def isTemplateStart (str : List Char) : Bool :=
  match find_first_not_of WS str with
  | none => false
  | some pos => str.getD pos ' ' == '<'

/-- Properties::isTemplateEnd: first non-whitespace character is `<`
followed immediately by `/` (the tag name is not inspected). -/
def isTemplateEnd (str : List Char) : Bool :=
  match find_first_not_of WS str with
  | none => false
  | some pos => str.getD pos ' ' == '<' && decide (pos + 1 < str.length) && str.getD (pos + 1) ' ' == '/'

/-- Properties::unescape inner loop: consume `\c` pairs from the front
while the pair leader is a backslash; append the remainder verbatim. -/
def unescapeRest : List Char → List Char
  | '\\' :: c :: rest => c :: unescapeRest rest
  | rest => rest

/-- Properties::unescape: runs the pair-consuming loop only when the
string has more than one character and starts with a backslash. -/
def unescape (str : List Char) : List Char :=
  if 1 < str.length ∧ str.head? = some '\\' then unescapeRest str else str

/-- Properties::unquote: if length > 2 and the first and last characters
are a matching pair of single or double quotes, strip one layer
(`substr(1, length-2)`); otherwise unchanged. -/
def unquote (str : List Char) : List Char :=
  if 2 < str.length ∧
      ((str.head? = some '\'' ∧ str.getLast? = some '\'') ∨
       (str.head? = some '"' ∧ str.getLast? = some '"')) then
    (str.drop 1).take (str.length - 2)
  else str

/-- Properties::replaceAll specialised to the only call site
(`replaceAll(substr, "\n", "\\\n    ")` in escape): the pattern is a
single character and the scan resumes after each inserted replacement,
so each newline is replaced independently. -/
def replaceAllNewline (str toStr : List Char) : List Char :=
  str.flatMap (fun c => if c = '\n' then toStr else [c])

/-- Properties::escape: prefix every leading whitespace character with a
backslash and replace each newline of the remainder with a backslash,
newline and four spaces; a string with no non-whitespace character is
returned unchanged. -/
def escape (str : List Char) : List Char :=
  match find_first_not_of WS str with
  | none => str
  | some s =>
    (str.take s).flatMap (fun c => ['\\', c]) ++
      replaceAllNewline (str.drop s) ['\\', '\n', ' ', ' ', ' ', ' ']

/-- Properties::join: fold with separator, optionally appending a final
separator when the joined string is non-empty. -/
def join (vs : List (List Char)) (sep : List Char) (append : Bool) : List Char :=
  match vs with
  | [] => []
  | v :: rest =>
    let str := rest.foldl (fun a b => a ++ sep ++ b) v
    if append && !str.isEmpty then str ++ sep else str

/-- The LineType enumeration of the source. -/
inductive LineType where
  | Property | Comment | Empty | MultilineValue
  | BlockStart | BlockEnd
  | TemplateStart | TemplateLine | TemplateEnd
deriving DecidableEq, Repr

/-- The Line struct of the source: one input line with the metadata needed
to reproduce its formatting. Defaults are the field initialisers of the
C++ struct. -/
structure Line where
  line : List Char
  linetype : LineType := .Property
  key : List Char := []
  bareKey : List Char := []
  beforeKey : List Char := []
  afterKey : List Char := [' ']
  beforeValue : List Char := [' ']
  afterValue : List Char := []
  lacksAssignment : Bool := false
deriving DecidableEq, Repr

/-- The Prop struct of the source (named PropEntry here because `Prop` is
reserved in Lean): current value of one qualified key. -/
structure PropEntry where
  key : List Char
  value : List Char
  modified : Bool := false
deriving DecidableEq, Repr

/-- Lookup in an association list; models `props.find(key)` /
`vars.find(varname)` on the unordered maps of the source (only lookup,
no-overwrite insert, in-place update and overwrite-on-assign are ever
used, all of which the association-list operations below reproduce). -/
def alookup {β : Type} (key : List Char) : List (List Char × β) → Option β
  | [] => none
  | (k, v) :: rest => if k = key then some v else alookup key rest

/-- Model of `props.insert(make_pair(key, prop))` on std::unordered_map:
insert does NOT overwrite; when the key is already present the map is
unchanged. -/
def insertIfAbsent (m : List (List Char × PropEntry)) (key : List Char) (v : PropEntry) :
    List (List Char × PropEntry) :=
  if (alookup key m).isSome then m else m ++ [(key, v)]

/-- Update the entry an earlier `find` located: sets `value` and
`modified := true` in place, models `prop->modified = true; prop->value = value`. -/
def updateProp (m : List (List Char × PropEntry)) (key value : List Char) :
    List (List Char × PropEntry) :=
  match m with
  | [] => []
  | (k, p) :: rest =>
    if k = key then (k, { p with value := value, modified := true }) :: rest
    else (k, p) :: updateProp rest key value

/-- The Properties document state: the property table, the ordered line
records and the prefix stack (the members of class Properties). -/
structure Properties where
  props : List (List Char × PropEntry) := []
  lines : List Line := []
  prefixStack : List (List Char) := []
deriving DecidableEq, Repr

/-- A default-constructed Properties object. -/
def emptyProperties : Properties := ⟨[], [], []⟩

/-- Properties::prependPrefix: prepend the dot-joined prefix stack (with
trailing separator) when the stack is non-empty. -/
def prependPrefix (stack : List (List Char)) (key : List Char) : List Char :=
  if !stack.isEmpty then join stack ['.'] true ++ key else key

/-- The line classification order of Properties::parse: comment, empty,
block start, block end, otherwise property (first match wins). -/
def classify (l : List Char) : LineType :=
  if isComment l then .Comment
  else if isEmptyLine l then .Empty
  else if isBlockStart l then .BlockStart
  else if isBlockEnd l then .BlockEnd
  else .Property

/-- Scanning mode of the parse loop: `normal` is the top of the outer
while loop; `multi key acc` is the inner multi-line continuation loop of
the source carrying the property's qualified key and the value
accumulated so far (the property is inserted when the loop ends). -/
inductive ScanMode where
  | normal
  | multi (propKey : List Char) (acc : List Char)
deriving DecidableEq, Repr

/-- Properties::parse main loop over the preprocessed lines. `curPrefix`
is the local variable `prefix` of the source (the pending bare key that
an upcoming brace turns into a prefix block). The inner
`while (getline(is, line))` multi-line loop of the source is the
`.multi` mode. -/
def parseLines : List (List Char) → ScanMode → List Char → Properties → Properties
  | [], .normal, _, st => st
  | [], .multi propKey acc, _, st =>
    { st with props := insertIfAbsent st.props propKey ⟨propKey, acc, false⟩ }
  | l :: rest, .multi propKey acc, curPrefix, st =>
    let st1 : Properties := { st with lines := st.lines ++ [{ line := l, linetype := .MultilineValue }] }
    let theline := trim1 l
    if isMultiLine theline then
      let t1 := theline.dropLast
      let t2 := if endswith t1 '"' || endswith t1 '\\' then unquote (trimright1 t1) else t1
      parseLines rest (.multi propKey (acc ++ t2)) curPrefix st1
    else
      parseLines rest .normal curPrefix
        { st1 with props := insertIfAbsent st1.props propKey ⟨propKey, acc ++ unquote theline, false⟩ }
  | l :: rest, .normal, curPrefix, st =>
    match classify l with
    | .Comment =>
      parseLines rest .normal curPrefix
        { st with lines := st.lines ++ [{ line := l, linetype := .Comment }] }
    | .Empty =>
      parseLines rest .normal curPrefix
        { st with lines := st.lines ++ [{ line := l, linetype := .Empty }] }
    | .BlockStart =>
      parseLines rest .normal curPrefix
        { st with lines := st.lines ++ [{ line := l, linetype := .BlockStart }],
                  prefixStack := if !curPrefix.isEmpty then st.prefixStack ++ [curPrefix]
                                 else st.prefixStack }
    | .BlockEnd =>
      parseLines rest .normal curPrefix
        { st with lines := st.lines ++ [{ line := l, linetype := .BlockEnd }],
                  prefixStack := st.prefixStack.dropLast }
    | _ =>
      let assignPos := find_first_of ['='] l
      let keypart := match assignPos with
                     | none => l
                     | some p => l.take p
      let tk := trim2 keypart
      let key := tk.1
      let tv : List Char × Option (List Char) × Option (List Char) :=
        match assignPos with
        | none => ([], none, none)
        | some p =>
          let t := trim2 (l.drop (p + 1))
          (unescape t.1, t.2.1, t.2.2)
      let value := tv.1
      let newPrefix : List Char := match assignPos with
                                   | none => key
                                   | some _ => []
      let qual := prependPrefix st.prefixStack key
      let entry : Line :=
        { line := l, linetype := .Property, key := qual, bareKey := key,
          beforeKey := tk.2.1.getD [], afterKey := tk.2.2.getD [' '],
          beforeValue := tv.2.1.getD [' '], afterValue := tv.2.2.getD [],
          lacksAssignment := assignPos.isNone }
      let st1 : Properties := { st with lines := st.lines ++ [entry] }
      if isMultiLine value then
        parseLines rest (.multi qual (unquote (trimright1 value.dropLast))) newPrefix st1
      else
        parseLines rest .normal newPrefix
          { st1 with props := insertIfAbsent st1.props qual ⟨qual, unquote value, false⟩ }

/-- Errors thrown by Properties::preprocess (std::runtime_error with the
four distinct messages of the source). -/
inductive PPError where
  | invalidTemplateDef
  | missingClosingTag
  | invalidTemplateVar
  | undefinedTemplate (name : List Char)
deriving DecidableEq, Repr

/-- Mode of the preprocess loop: `normal vars` is the top of the outer
while loop with the definitions accumulated so far; `capture vars name acc`
is the inner loop of the source collecting the raw lines of template
`name` until a closing tag. -/
inductive TMode where
  | normal (vars : List (List Char × List (List Char)))
  | capture (vars : List (List Char × List (List Char)))
      (name : List Char) (acc : List (List Char))
deriving DecidableEq, Repr

/-- Properties::preprocess: expands template definitions and references.
Prepending `(name, acc)` to `vars` models `vars[varname] = templatelines`
(assignment overwrites, and `alookup` returns the first match). -/
def preprocessAux : List (List Char) → TMode → Except PPError (List (List Char))
  | [], .normal _ => .ok []
  | [], .capture _ _ _ => .error .missingClosingTag
  | l :: rest, .capture vars name acc =>
    if isTemplateEnd l then preprocessAux rest (.normal ((name, acc) :: vars))
    else preprocessAux rest (.capture vars name (acc ++ [l]))
  | l :: rest, .normal vars =>
    if isTemplateStart l then
      let trimmed := trim1 l
      if trimmed.length < 3 then .error .invalidTemplateDef
      else preprocessAux rest (.capture vars ((trimmed.drop 1).take (trimmed.length - 2)) [])
    else if isTemplateVariable l then
      let trimmed := trim1 l
      if trimmed.length < 3 then .error .invalidTemplateVar
      else
        let varname := (trimmed.drop 1).take (trimmed.length - 2)
        match alookup varname vars with
        | none => .error (.undefinedTemplate varname)
        | some ts => (preprocessAux rest (.normal vars)).map (fun os => ts ++ os)
    else (preprocessAux rest (.normal vars)).map (fun os => l :: os)

/-- Properties::preprocess entry point, starting with no definitions. -/
def preprocess (ls : List (List Char)) : Except PPError (List (List Char)) :=
  preprocessAux ls (.normal [])

/-- Splitting a character stream into lines exactly as the
`while (getline(is, line))` loops of the source do: a line ends at a
newline (consumed) or at end of input; a trailing newline does not
produce an extra empty line; empty input yields no lines. `cur` is the
line accumulated so far. -/
def splitAux : List Char → List Char → List (List Char)
  | [], cur => [cur]
  | '\n' :: rest, cur =>
    cur :: (match rest with
            | [] => []
            | _ => splitAux rest [])
  | c :: rest, cur => splitAux rest (cur ++ [c])

/-- Splitting the whole input into getline-lines (on empty input the
first getline fails at once and no line is produced). -/
def splitLines (s : List Char) : List (List Char) :=
  if s.isEmpty then [] else splitAux s []

/-- Joining lines with newline terminators, as preprocess's
`os << line << std::endl` and text's per-line `"\n"` do. -/
def unlines (ls : List (List Char)) : List Char :=
  ls.foldr (fun l acc => l ++ '\n' :: acc) []

/-- Properties::parse: preprocess the raw input, then scan the expanded
lines. A preprocess error aborts the parse before any line record or
property is created (the C++ calls preprocess first and only then starts
mutating the document), so on error no document is produced. -/
def parse (st : Properties) (input : List Char) : Except PPError Properties :=
  (preprocess (splitLines input)).map (fun ls => parseLines ls .normal [] st)

/-- Properties::hasKey. -/
def hasKey (st : Properties) (key : List Char) : Bool :=
  (alookup key st.props).isSome

/-- Properties::get: the property value, or an empty string. -/
def get (st : Properties) (key : List Char) : List Char :=
  match alookup key st.props with
  | some p => p.value
  | none => []

/-- Properties::getBool: default when the key is absent, else whether the
value is exactly "true", "1" or "yes". -/
def getBool (st : Properties) (key : List Char) (defaultValue : Bool) : Bool :=
  if hasKey st key then
    let val := get st key
    val == "true".toList || val == "1".toList || val == "yes".toList
  else defaultValue

/-- Properties::put: update an existing property (returning its old
value) or append a fresh Property line record and table entry. -/
def put (st : Properties) (key value : List Char) : List Char × Properties :=
  match alookup key st.props with
  | some p =>
    (p.value, { st with props := updateProp st.props key value })
  | none =>
    ([], { st with
            lines := st.lines ++ [{ line := key ++ ' ' :: '=' :: ' ' :: value,
                                    linetype := .Property, key := key, bareKey := key }],
            props := st.props ++ [(key, ⟨key, value, true⟩)] })

/-- Failure of `std::string(count, ' ')` in Properties::text: a negative
`prefixDepth*4` converts to a huge size_t and the constructor throws
std::length_error. -/
inductive TextError where
  | lengthError
deriving DecidableEq, Repr

/-- Indentation string `std::string(n, ' ')` where `n` is the signed
`prefixDepth*4` of the source; throws for negative counts. -/
def spacesOf (n : Int) : Except TextError (List Char) :=
  if n < 0 then .error .lengthError else .ok (List.replicate n.toNat ' ')

/-- Properties::text rendering loop. `prev` is the linetype of the
previously processed record (the `prev` pointer of the source), `depth`
is `prefixDepth`. MultilineValue records fall to the default case of the
switch: nothing is emitted but `prev` is still updated. -/
def textAux (props : List (List Char × PropEntry)) (prettyPrint : Bool) :
    List Line → Option LineType → Int → Except TextError (List Char)
  | [], _, _ => .ok []
  | e :: rest, prev, depth =>
    match e.linetype with
    | .Empty => do
      let tl ← textAux props prettyPrint rest (some .Empty) depth
      .ok ((if !prettyPrint || !(prev == some .Empty) then ['\n'] else []) ++ tl)
    | .Comment => do
      let tl ← textAux props prettyPrint rest (some .Comment) depth
      .ok ((if prettyPrint then trim1 e.line else e.line) ++ '\n' :: tl)
    | .Property =>
      (match alookup e.key props with
       | none => textAux props prettyPrint rest (some .Property) depth
       | some p => do
         let tl ← textAux props prettyPrint rest (some .Property) depth
         let piece :=
           if prettyPrint then
             (if 0 < depth then List.replicate (depth * 4).toNat ' ' else []) ++
               e.bareKey ++
               (if !p.value.isEmpty then ' ' :: '=' :: ' ' :: escape p.value else [])
           else
             e.beforeKey ++ e.bareKey ++ e.afterKey ++
               (if !e.lacksAssignment || p.modified then
                 '=' :: (e.beforeValue ++ escape p.value ++ e.afterValue)
                else [])
         .ok (piece ++ '\n' :: tl))
    | .BlockStart => do
      let sp ← spacesOf (depth * 4)
      let tl ← textAux props prettyPrint rest (some .BlockStart) (depth + 1)
      .ok (sp ++ '\x7b' :: '\n' :: tl)
    | .BlockEnd => do
      let sp ← spacesOf ((depth - 1) * 4)
      let tl ← textAux props prettyPrint rest (some .BlockEnd) (depth - 1)
      .ok (sp ++ '\x7d' :: '\n' :: tl)
    | lt => textAux props prettyPrint rest (some lt) depth

/-- Properties::text: render all line records starting with no previous
line and prefix depth 0. -/
def text (st : Properties) (prettyPrint : Bool) : Except TextError (List Char) :=
  textAux st.props prettyPrint st.lines none 0

/-- A canonical single-space property line `key = value`. -/
def mkCanonLine (k v : List Char) : List Char :=
  k ++ ' ' :: '=' :: ' ' :: v

/-- Canonical key: non-empty, free of whitespace and of `=`, and its first
character is none of the comment, block or template lead characters. -/
def CanonKey (k : List Char) : Prop :=
  k ≠ [] ∧ (∀ c ∈ k, c ∉ WS) ∧ '=' ∉ k ∧
    k.head? ∉ ([some '#', some '!', some '\x7b', some '\x7d', some '<', some '%'] :
      List (Option Char))

/-- Canonical value: non-empty, free of whitespace, not starting with a
backslash or a quote, not ending with a backslash. -/
def CanonVal (v : List Char) : Prop :=
  v ≠ [] ∧ (∀ c ∈ v, c ∉ WS) ∧
    v.head? ∉ ([some '\\', some '\'', some '"'] : List (Option Char)) ∧
    v.getLast? ≠ some '\\'

instance (k : List Char) : Decidable (CanonKey k) := by
  unfold CanonKey
  infer_instance

instance (v : List Char) : Decidable (CanonVal v) := by
  unfold CanonVal
  infer_instance

/-- The Line record that parsing a bare key line (no `=`) produces. -/
def bareKeyRec (stack : List (List Char)) (l : List Char) : Line :=
  { line := l, linetype := .Property,
    key := prependPrefix stack (trim1 l), bareKey := trim1 l,
    beforeKey := (trim2 l).2.1.getD [], afterKey := (trim2 l).2.2.getD [' '],
    beforeValue := [' '], afterValue := [], lacksAssignment := true }

/-- The Line record that parsing a canonical line produces. -/
def canonRec (stack : List (List Char)) (k v : List Char) : Line :=
  { line := mkCanonLine k v, linetype := .Property,
    key := prependPrefix stack k, bareKey := k,
    beforeKey := [], afterKey := [' '], beforeValue := [' '], afterValue := [],
    lacksAssignment := false }

/-- The property table that parsing a sequence of canonical lines at
empty prefix stack accumulates (insertion never overwrites). -/
def buildProps (m : List (List Char × PropEntry)) (ps : List (List Char × List Char)) :
    List (List Char × PropEntry) :=
  ps.foldl (fun acc p => insertIfAbsent acc p.1 ⟨p.1, p.2, false⟩) m

/-- The Line record that put appends for a fresh key: raw text
`key + " = " + value`, Property kind, default formatting metadata. -/
def putRec (key value : List Char) : Line :=
  { line := key ++ ' ' :: '=' :: ' ' :: value, linetype := .Property,
    key := key, bareKey := key }

theorem ffno_cons_mem {set : List Char} {c : Char} (t : List Char) (h : c ∈ set) :
    find_first_not_of set (c :: t) = (find_first_not_of set t).map (· + 1) := by
  simp [find_first_not_of, h]

theorem ffno_cons_notMem {set : List Char} {c : Char} (t : List Char) (h : c ∉ set) :
    find_first_not_of set (c :: t) = some 0 := by
  simp [find_first_not_of, h]

theorem ffno_eq_none_iff {set l : List Char} :
    find_first_not_of set l = none ↔ ∀ c ∈ l, c ∈ set := by
  induction l with
  | nil => simp [find_first_not_of]
  | cons c t ih =>
    by_cases hc : c ∈ set
    · simp [find_first_not_of, hc, ih]
    · simp [find_first_not_of, hc]

theorem ffno_drop {set l : List Char} {i : Nat}
    (h : find_first_not_of set l = some i) :
    ∃ c t, l.drop i = c :: t ∧ c ∉ set ∧ (∀ d, l.getD i d = c) ∧ c ∈ l := by
  induction l generalizing i with
  | nil => simp [find_first_not_of] at h
  | cons c t ih =>
    by_cases hc : c ∈ set
    · rw [ffno_cons_mem t hc] at h
      rcases Option.map_eq_some'.mp h with ⟨j, hj, rfl⟩
      rcases ih hj with ⟨c2, t2, h1, h2, h3, h4⟩
      exact ⟨c2, t2, by simpa using h1, h2, fun d => by simpa using h3 d, by simp [h4]⟩
    · rw [ffno_cons_notMem t hc] at h
      cases h
      exact ⟨c, t, rfl, hc, fun d => rfl, by simp⟩

theorem flno_all_mem {set l : List Char} (h : ∀ c ∈ l, c ∈ set) :
    find_last_not_of set l = none := by
  induction l with
  | nil => rfl
  | cons c t ih =>
    have := ih (fun x hx => h x (by simp [hx]))
    simp [find_last_not_of, this, h c (by simp)]

theorem flno_append_all_mem {set : List Char} (xs : List Char) {ys : List Char}
    (h : ∀ c ∈ ys, c ∈ set) :
    find_last_not_of set (xs ++ ys) = find_last_not_of set xs := by
  induction xs with
  | nil => simp [flno_all_mem h, find_last_not_of]
  | cons x xs ih => simp [find_last_not_of, ih]

theorem flno_all_notMem {set l : List Char} (h : ∀ c ∈ l, c ∉ set) (hne : l ≠ []) :
    find_last_not_of set l = some (l.length - 1) := by
  induction l with
  | nil => exact absurd rfl hne
  | cons c t ih =>
    rcases t with _ | ⟨c2, t2⟩
    · simp [find_last_not_of, h c (by simp)]
    · have := ih (fun x hx => h x (by simp [hx])) (by simp)
      simp [find_last_not_of] at this ⊢
      simp [this]

theorem flno_append_singleton {set : List Char} (xs : List Char) {c : Char}
    (h : c ∉ set) :
    find_last_not_of set (xs ++ [c]) = some xs.length := by
  induction xs with
  | nil => simp [find_last_not_of, h]
  | cons x xs ih => simp [find_last_not_of, ih]

theorem ffo_append_notMem {set : List Char} {xs : List Char} (ys : List Char)
    (h : ∀ c ∈ xs, c ∉ set) :
    find_first_of set (xs ++ ys) = (find_first_of set ys).map (· + xs.length) := by
  induction xs with
  | nil => cases hy : find_first_of set ys <;> simp [hy]
  | cons x xs ih =>
    have hx : x ∉ set := h x (by simp)
    have := ih (fun c hc => h c (by simp [hc]))
    rw [List.cons_append]
    simp only [find_first_of, if_neg hx, this]
    cases hy : find_first_of set ys with
    | none => simp [hy]
    | some a => simp [hy]; omega

theorem trim2_key {k : List Char} (hne : k ≠ []) (hws : ∀ c ∈ k, c ∉ WS) :
    trim2 (k ++ [' ']) = (k, some [], some [' ']) := by
  obtain ⟨c, t, rfl⟩ := List.exists_cons_of_ne_nil hne
  have hffno : find_first_not_of WS (c :: (t ++ [' '])) = some 0 :=
    ffno_cons_notMem _ (hws c (by simp))
  have hflno : find_last_not_of WS (c :: (t ++ [' '])) = some t.length := by
    rw [← List.cons_append,
      flno_append_all_mem (c :: t) (by intro x hx; simp at hx; simp [hx, WS]),
      flno_all_notMem hws (by simp)]
    simp
  have htake : List.take (t.length + 1) (c :: (t ++ [' '])) = c :: t := by
    rw [← List.cons_append]
    have := List.take_left (c :: t) ([' '] : List Char)
    simp at this
    simp [this]
  have hdrop : List.drop (t.length + 1) (c :: (t ++ [' '])) = [' '] := by
    rw [← List.cons_append]
    have := List.drop_left (c :: t) ([' '] : List Char)
    simp at this
    simp [this]
  simp [trim2, trimleft2, trimright2, hffno, hflno, htake, hdrop]

theorem trim2_val {v : List Char} (hne : v ≠ []) (hws : ∀ c ∈ v, c ∉ WS) :
    trim2 (' ' :: v) = (v, some [' '], some []) := by
  obtain ⟨c, t, rfl⟩ := List.exists_cons_of_ne_nil hne
  have h0 : find_first_not_of WS (' ' :: c :: t) = some 1 := by
    rw [ffno_cons_mem _ (by simp [WS]), ffno_cons_notMem _ (hws c (by simp))]
    rfl
  have h1 : find_last_not_of WS (c :: t) = some ((c :: t).length - 1) :=
    flno_all_notMem hws (by simp)
  have hlen : (c :: t).length - 1 + 1 = (c :: t).length := by simp
  simp [trim2, trimleft2, trimright2, h0, h1, hlen, List.take_length, List.drop_length]

theorem replaceAllNewline_id {v : List Char} (r : List Char) (h : '\n' ∉ v) :
    replaceAllNewline v r = v := by
  induction v with
  | nil => rfl
  | cons c t ih =>
    have hc : ¬(c = '\n') := fun hh => h (by simp [hh])
    have ht : '\n' ∉ t := fun hh => h (by simp [hh])
    simp only [replaceAllNewline, List.flatMap_cons, if_neg hc] at ih ⊢
    simp [ih ht]

theorem escape_of_canon {c : Char} {t : List Char} (hc : c ∉ WS) (hn : '\n' ∉ c :: t) :
    escape (c :: t) = c :: t := by
  simp [escape, ffno_cons_notMem _ hc, replaceAllNewline_id _ hn]

theorem unescape_of_head {v : List Char} (h : v.head? ≠ some '\\') : unescape v = v := by
  unfold unescape
  rw [if_neg]
  rintro ⟨-, h2⟩
  exact h h2

theorem unquote_of_head {v : List Char} (h1 : v.head? ≠ some '\'') (h2 : v.head? ≠ some '"') :
    unquote v = v := by
  unfold unquote
  rw [if_neg]
  rintro ⟨-, ⟨ha, -⟩ | ⟨ha, -⟩⟩
  exacts [h1 ha, h2 ha]

theorem isMultiLine_of_canon {v : List Char} (hne : v ≠ []) (hws : ∀ c ∈ v, c ∉ WS)
    (hlast : v.getLast? ≠ some '\\') : isMultiLine v = false := by
  rcases List.eq_nil_or_concat v with rfl | ⟨L, b, rfl⟩
  · exact absurd rfl hne
  · have hb : b ∉ WS := hws b (by simp)
    have hgd : (L ++ [b]).getD L.length ' ' = b := by
      simp [List.getD_eq_getElem?_getD]
    have hbne : ¬(b = '\\') := by
      intro hh
      exact hlast (by simp [hh])
    simp [isMultiLine, endswith, flno_append_singleton L hb, hgd, hbne]

theorem isComment_cons {c : Char} (t : List Char) (h : c ∉ WS) :
    isComment (c :: t) = (c == '#' || c == '!') := by
  simp [isComment, ffno_cons_notMem _ h]

theorem isEmptyLine_cons {c : Char} (t : List Char) (h : c ∉ WS) :
    isEmptyLine (c :: t) = false := by
  simp [isEmptyLine]
  exact fun hh => absurd hh h

theorem isBlockStart_cons {c : Char} (t : List Char) (h : c ∉ WS) :
    isBlockStart (c :: t) = (c == '\x7b') := by
  simp [isBlockStart, ffno_cons_notMem _ h]

theorem isBlockEnd_cons {c : Char} (t : List Char) (h : c ∉ WS) :
    isBlockEnd (c :: t) = (c == '\x7d') := by
  simp [isBlockEnd, ffno_cons_notMem _ h]

theorem isTemplateStart_cons {c : Char} (t : List Char) (h : c ∉ WS) :
    isTemplateStart (c :: t) = (c == '<') := by
  simp [isTemplateStart, ffno_cons_notMem _ h]

theorem isTemplateVariable_cons {c : Char} (t : List Char) (h : c ∉ WS) :
    isTemplateVariable (c :: t) = (c == '%') := by
  simp [isTemplateVariable, ffno_cons_notMem _ h]

theorem classify_cons_Property {c : Char} (t : List Char) (h : c ∉ WS)
    (h1 : ¬(c = '#')) (h2 : ¬(c = '!')) (h3 : ¬(c = '\x7b')) (h4 : ¬(c = '\x7d')) :
    classify (c :: t) = .Property := by
  simp [classify, isComment_cons t h, isEmptyLine_cons t h, isBlockStart_cons t h,
    isBlockEnd_cons t h, h1, h2, h3, h4]

theorem canonKey_facts {k : List Char} (hk : CanonKey k) :
    ∃ c t, k = c :: t ∧ c ∉ WS ∧ ¬(c = '#') ∧ ¬(c = '!') ∧ ¬(c = '\x7b') ∧
      ¬(c = '\x7d') ∧ ¬(c = '<') ∧ ¬(c = '%') := by
  obtain ⟨hne, hws, -, hhead⟩ := hk
  obtain ⟨c, t, rfl⟩ := List.exists_cons_of_ne_nil hne
  simp only [List.head?_cons, List.mem_cons, List.not_mem_nil] at hhead
  push_neg at hhead
  obtain ⟨h1, h2, h3, h4, h5, h6, -⟩ := hhead
  exact ⟨c, t, rfl, hws c (by simp), by simpa using h1, by simpa using h2,
    by simpa using h3, by simpa using h4, by simpa using h5, by simpa using h6⟩

theorem classify_canon {k v : List Char} (hk : CanonKey k) :
    classify (mkCanonLine k v) = .Property := by
  obtain ⟨c, t, rfl, hcw, h1, h2, h3, h4, -, -⟩ := canonKey_facts hk
  rw [mkCanonLine, List.cons_append]
  exact classify_cons_Property _ hcw h1 h2 h3 h4

theorem ffo_canon {k v : List Char} (hk : CanonKey k) :
    find_first_of ['='] (mkCanonLine k v) = some (1 + k.length) := by
  obtain ⟨-, -, heq, -⟩ := hk
  rw [mkCanonLine, ffo_append_notMem _ (by intro c hc hmem; simp at hmem; subst hmem; exact heq hc)]
  have h2 : find_first_of ['='] (' ' :: '=' :: ' ' :: v) = some 1 := by
    simp [find_first_of]
  rw [h2]
  rfl

theorem parseLines_canon_step {k v : List Char} (hk : CanonKey k) (hv : CanonVal v)
    (rest : List (List Char)) (curPrefix : List Char) (st : Properties) :
    parseLines (mkCanonLine k v :: rest) .normal curPrefix st =
      parseLines rest .normal []
        { st with
            lines := st.lines ++ [canonRec st.prefixStack k v],
            props := insertIfAbsent st.props (prependPrefix st.prefixStack k)
              ⟨prependPrefix st.prefixStack k, v, false⟩ } := by
  have hkne := hk.1
  have hkws := hk.2.1
  obtain ⟨hvne, hvws, hvhead, hvlast⟩ := hv
  have hvh1 : v.head? ≠ some '\\' := by intro hh; simp [hh] at hvhead
  have hvh2 : v.head? ≠ some '\'' := by intro hh; simp [hh] at hvhead
  have hvh3 : v.head? ≠ some '"' := by intro hh; simp [hh] at hvhead
  have htake : (mkCanonLine k v).take (1 + k.length) = k ++ [' '] := by
    rw [mkCanonLine, Nat.add_comm 1 k.length, List.take_append 1]
    simp
  have hdrop : (mkCanonLine k v).drop (1 + k.length + 1) = ' ' :: v := by
    rw [mkCanonLine]
    have : 1 + k.length + 1 = k.length + 2 := by omega
    rw [this, List.drop_append 2]
    simp
  have htrimk := trim2_key hkne hkws
  have htrimv := trim2_val hvne hvws
  have hml : isMultiLine (unescape (trim2 ((mkCanonLine k v).drop (1 + k.length + 1))).1) = false := by
    rw [hdrop, htrimv, unescape_of_head hvh1]
    exact isMultiLine_of_canon hvne hvws hvlast
  have huq : unquote (unescape v) = v := by
    rw [unescape_of_head hvh1]
    exact unquote_of_head hvh2 hvh3
  simp only [parseLines, classify_canon hk, ffo_canon hk, htake, hdrop, htrimk, htrimv,
    unescape_of_head hvh1, isMultiLine_of_canon hvne hvws hvlast, huq,
    unquote_of_head hvh2 hvh3,
    Option.getD_some, Option.isNone_some, Bool.false_eq_true, if_false, canonRec]

theorem parseLines_canon_run (ps : List (List Char × List Char))
    (hc : ∀ p ∈ ps, CanonKey p.1 ∧ CanonVal p.2) (cp : List Char)
    (m : List (List Char × PropEntry)) (L : List Line) :
    parseLines (ps.map (fun p => mkCanonLine p.1 p.2)) .normal cp ⟨m, L, []⟩ =
      ⟨buildProps m ps, L ++ ps.map (fun p => canonRec [] p.1 p.2), []⟩ := by
  induction ps generalizing cp m L with
  | nil => simp [parseLines, buildProps]
  | cons p ps ih =>
    obtain ⟨hk, hv⟩ := hc p (by simp)
    rw [List.map_cons, parseLines_canon_step hk hv]
    rw [show ({ (⟨m, L, []⟩ : Properties) with
          lines := L ++ [canonRec [] p.1 p.2],
          props := insertIfAbsent m (prependPrefix [] p.1) ⟨prependPrefix [] p.1, p.2, false⟩ } :
        Properties) =
      ⟨insertIfAbsent m p.1 ⟨p.1, p.2, false⟩, L ++ [canonRec [] p.1 p.2], []⟩ from by
        simp [prependPrefix]]
    rw [ih (fun q hq => hc q (by simp [hq]))]
    simp [buildProps]

theorem alookup_append_left {β : Type} {key : List Char} {m1 : List (List Char × β)}
    (m2 : List (List Char × β)) {v : β} (h : alookup key m1 = some v) :
    alookup key (m1 ++ m2) = some v := by
  induction m1 with
  | nil => simp [alookup] at h
  | cons e m1 ih =>
    by_cases he : e.1 = key
    · simp [alookup, he] at h ⊢
      exact h
    · simp [alookup, he] at h ⊢
      exact ih h

theorem alookup_append_right {β : Type} {key : List Char} {m1 : List (List Char × β)}
    (m2 : List (List Char × β)) (h : alookup key m1 = none) :
    alookup key (m1 ++ m2) = alookup key m2 := by
  induction m1 with
  | nil => rfl
  | cons e m1 ih =>
    by_cases he : e.1 = key
    · simp [alookup, he] at h
    · simp [alookup, he] at h ⊢
      exact ih h

theorem insertIfAbsent_preserves {m : List (List Char × PropEntry)} {key : List Char}
    {v : PropEntry} (k2 : List Char) (p2 : PropEntry) (h : alookup key m = some v) :
    alookup key (insertIfAbsent m k2 p2) = some v := by
  unfold insertIfAbsent
  split
  · exact h
  · exact alookup_append_left _ h

theorem buildProps_preserves {m : List (List Char × PropEntry)} {key : List Char}
    {v : PropEntry} (ps : List (List Char × List Char)) (h : alookup key m = some v) :
    alookup key (buildProps m ps) = some v := by
  induction ps generalizing m with
  | nil => exact h
  | cons p ps ih =>
    simp only [buildProps, List.foldl_cons] at ih ⊢
    exact ih (insertIfAbsent_preserves _ _ h)

theorem alookup_buildProps (ps : List (List Char × List Char))
    (m : List (List Char × PropEntry))
    (hnd : (ps.map Prod.fst).Nodup)
    (habs : ∀ p ∈ ps, alookup p.1 m = none) :
    ∀ p ∈ ps, alookup p.1 (buildProps m ps) = some ⟨p.1, p.2, false⟩ := by
  induction ps generalizing m with
  | nil => simp
  | cons q ps ih =>
    intro p hp
    have hq : alookup q.1 m = none := habs q (by simp)
    have hins : insertIfAbsent m q.1 ⟨q.1, q.2, false⟩ = m ++ [(q.1, ⟨q.1, q.2, false⟩)] := by
      unfold insertIfAbsent
      simp [hq]
    have hqlk : alookup q.1 (m ++ [(q.1, ⟨q.1, q.2, false⟩)]) = some ⟨q.1, q.2, false⟩ := by
      rw [alookup_append_right _ hq]
      simp [alookup]
    rcases List.mem_cons.mp hp with rfl | hmem
    · simp only [buildProps, List.foldl_cons, hins]
      exact buildProps_preserves ps hqlk
    · have hnotin : q.1 ∉ ps.map Prod.fst := by
        have := hnd
        simp only [List.map_cons, List.nodup_cons] at this
        exact this.1
      have habs2 : ∀ r ∈ ps, alookup r.1 (m ++ [(q.1, ⟨q.1, q.2, false⟩)]) = none := by
        intro r hr
        rw [alookup_append_right _ (habs r (by simp [hr]))]
        have hne : ¬(q.1 = r.1) := by
          intro hh
          exact hnotin (by rw [hh]; exact List.mem_map_of_mem _ hr)
        simp [alookup, hne]
      have hnd2 : (ps.map Prod.fst).Nodup := by
        simp only [List.map_cons, List.nodup_cons] at hnd
        exact hnd.2
      simp only [buildProps, List.foldl_cons, hins]
      exact ih _ hnd2 habs2 p hmem

theorem textAux_canon (ps : List (List Char × List Char))
    (props : List (List Char × PropEntry))
    (hc : ∀ p ∈ ps, CanonVal p.2)
    (hlk : ∀ p ∈ ps, alookup p.1 props = some ⟨p.1, p.2, false⟩) :
    ∀ prev depth, textAux props false (ps.map (fun p => canonRec [] p.1 p.2)) prev depth =
      .ok (unlines (ps.map (fun p => mkCanonLine p.1 p.2))) := by
  induction ps with
  | nil => intro prev depth; simp [textAux, unlines]
  | cons p ps ih =>
    intro prev depth
    obtain ⟨hvne, hvws, -, -⟩ := hc p (by simp)
    obtain ⟨c, t, hct⟩ := List.exists_cons_of_ne_nil hvne
    have hnl : '\n' ∉ p.2 := fun hh => hvws '\n' hh (by simp [WS])
    have hesc : escape p.2 = p.2 := by
      rw [hct] at hnl ⊢
      exact escape_of_canon (hvws c (by simp [hct])) hnl
    have ih2 := ih (fun q hq => hc q (by simp [hq])) (fun q hq => hlk q (by simp [hq]))
    simp only [List.map_cons, textAux, canonRec, prependPrefix, List.isEmpty_nil,
      Bool.not_true, Bool.false_eq_true, if_false] at ih2 ⊢
    rw [hlk p (by simp)]
    rw [ih2 (some .Property) depth]
    exact congrArg Except.ok (by simp [hesc, unlines, mkCanonLine])

theorem preprocessAux_passthrough (ls : List (List Char))
    (vars : List (List Char × List (List Char)))
    (h : ∀ l ∈ ls, isTemplateStart l = false ∧ isTemplateVariable l = false) :
    preprocessAux ls (.normal vars) = .ok ls := by
  induction ls with
  | nil => rfl
  | cons l rest ih =>
    obtain ⟨h1, h2⟩ := h l (by simp)
    simp [preprocessAux, h1, h2, ih (fun x hx => h x (by simp [hx])), Except.map]

theorem canon_not_template {k v : List Char} (hk : CanonKey k) :
    isTemplateStart (mkCanonLine k v) = false ∧ isTemplateVariable (mkCanonLine k v) = false := by
  obtain ⟨c, t, rfl, hcw, -, -, -, -, h5, h6⟩ := canonKey_facts hk
  rw [mkCanonLine, List.cons_append]
  rw [isTemplateStart_cons _ hcw, isTemplateVariable_cons _ hcw]
  simp [h5, h6]

theorem splitAux_append {l : List Char} (hnl : '\n' ∉ l) (u cur : List Char) :
    splitAux (l ++ '\n' :: u) cur = (cur ++ l) :: splitLines u := by
  induction l generalizing cur with
  | nil => cases u <;> simp [splitAux, splitLines]
  | cons c l ih =>
    have hc : ¬(c = '\n') := fun hh => hnl (by simp [hh])
    have hl : '\n' ∉ l := fun hh => hnl (by simp [hh])
    rw [List.cons_append]
    rw [show splitAux (c :: (l ++ '\n' :: u)) cur = splitAux (l ++ '\n' :: u) (cur ++ [c]) from by
      simp [splitAux, hc]]
    rw [ih hl]
    simp

theorem splitLines_unlines (ls : List (List Char)) (h : ∀ l ∈ ls, '\n' ∉ l) :
    splitLines (unlines ls) = ls := by
  induction ls with
  | nil => rfl
  | cons l rest ih =>
    have hu : unlines (l :: rest) = l ++ '\n' :: unlines rest := rfl
    rw [hu, splitLines, if_neg (by simp)]
    rw [splitAux_append (h l (by simp)) _ _]
    rw [ih (fun x hx => h x (by simp [hx]))]
    simp

/-- C1 counterexample: the round-trip claim fails for arbitrary original
whitespace. The input consisting of the single whitespace-only line
`" "` parses without template errors, yet `text(prettyPrint=false)`
renders it as a bare newline: the Empty case of the renderer emits
`"\n"` and discards the original spaces, so the original byte sequence
is not reproduced. -/
theorem c1_roundTrip_counterexample :
    (parse emptyProperties [' ', '\n']).map (fun st => text st false) =
        .ok (.ok ['\n']) ∧
      ¬(([' ', '\n'] : List Char) = ['\n']) :=
  ⟨rfl, by decide⟩

/-- C1 (amended): the original-format round-trip holds for inputs in
canonical single-space formatting: any sequence of `key = value` lines
with pairwise distinct keys, where keys are non-empty, whitespace- and
`=`-free and do not begin with a comment, block or template lead
character, and values are non-empty, whitespace-free, do not begin with
a backslash or quote and do not end with a backslash. For such input,
parse followed by text(prettyPrint=false) reproduces the input byte
sequence exactly. It does NOT extend to arbitrary original whitespace
(see the counterexample: a whitespace-only line is normalised), nor to
quoted values (unquote strips the quotes), multi-line values (the
continuation records render as nothing) or duplicate keys (both lines
render the surviving first value). -/
theorem c1_roundTrip_canonical (ps : List (List Char × List Char))
    (hc : ∀ p ∈ ps, CanonKey p.1 ∧ CanonVal p.2)
    (hnd : (ps.map Prod.fst).Nodup) :
    (parse emptyProperties (unlines (ps.map (fun p => mkCanonLine p.1 p.2)))).map
        (fun st => text st false) =
      .ok (.ok (unlines (ps.map (fun p => mkCanonLine p.1 p.2)))) := by
  have hnl : ∀ l ∈ ps.map (fun p => mkCanonLine p.1 p.2), '\n' ∉ l := by
    intro l hl
    obtain ⟨p, hp, rfl⟩ := List.mem_map.mp hl
    obtain ⟨⟨-, hkws, -, -⟩, ⟨-, hvws, -, -⟩⟩ := hc p hp
    intro hmem
    rw [mkCanonLine] at hmem
    rcases List.mem_append.mp hmem with h | h
    · exact hkws '\n' h (by simp [WS])
    · rw [List.mem_cons, List.mem_cons, List.mem_cons] at h
      rcases h with h | h | h | h
      · exact absurd h (by decide)
      · exact absurd h (by decide)
      · exact absurd h (by decide)
      · exact hvws '\n' h (by simp [WS])
  have hsplit := splitLines_unlines _ hnl
  have hpp : preprocess (ps.map fun p => mkCanonLine p.1 p.2) =
      .ok (ps.map fun p => mkCanonLine p.1 p.2) := by
    apply preprocessAux_passthrough
    intro l hl
    obtain ⟨p, hp, rfl⟩ := List.mem_map.mp hl
    exact canon_not_template (hc p hp).1
  have hrun := parseLines_canon_run ps hc [] [] []
  have hlk := alookup_buildProps ps [] hnd (fun p _ => rfl)
  have hrender := textAux_canon ps (buildProps [] ps) (fun p hp => (hc p hp).2) hlk none 0
  rw [parse, hsplit, hpp]
  rw [show emptyProperties = (⟨[], [], []⟩ : Properties) from rfl]
  simp only [Except.map, hrun, text, List.nil_append]
  rw [hrender]

/-- C1 witness: the canonical round trip evaluated on the concrete input
`"a = 1\nb = 2\n"`. -/
theorem c1_roundTrip_canonical_witness :
    (parse emptyProperties
        (unlines ([("a".toList, "1".toList), ("b".toList, "2".toList)].map
          (fun p => mkCanonLine p.1 p.2)))).map (fun st => text st false) =
      .ok (.ok (unlines ([("a".toList, "1".toList), ("b".toList, "2".toList)].map
        (fun p => mkCanonLine p.1 p.2)))) :=
  c1_roundTrip_canonical _ (by decide) (by decide)

theorem mkCanonLine_no_newline {k v : List Char} (hk : CanonKey k) (hv : CanonVal v) :
    '\n' ∉ mkCanonLine k v := by
  obtain ⟨-, hkws, -, -⟩ := hk
  obtain ⟨-, hvws, -, -⟩ := hv
  intro hmem
  rw [mkCanonLine] at hmem
  rcases List.mem_append.mp hmem with h | h
  · exact hkws '\n' h (by simp [WS])
  · rw [List.mem_cons, List.mem_cons, List.mem_cons] at h
    rcases h with h | h | h | h
    · exact absurd h (by decide)
    · exact absurd h (by decide)
    · exact absurd h (by decide)
    · exact hvws '\n' h (by simp [WS])

/-- C2 counterexample: parsing the two-line input `k = 1` / `k = 2` and
asking for `get("k")` returns "1" — the value of the FIRST occurrence,
because std::unordered_map::insert does not overwrite an existing key —
while the claim states the LAST occurrence ("2") wins. Both line records
are present (lines.length = 2). -/
theorem c2_duplicate_counterexample :
    (parse emptyProperties ("k = 1\nk = 2\n".toList)).map
        (fun st => (get st ['k'], st.lines.length)) = .ok (['1'], 2) ∧
      ¬((['1'] : List Char) = ['2']) :=
  ⟨rfl, by decide⟩

/-- C2 (amended): when the same qualified key occurs twice in the input,
the duplicate insertion is a no-op — `props.insert` on the unordered map
leaves the prior Property, so after parse `get(key)` returns the value
of the FIRST occurrence in the file (first occurrence wins), while both
LineRecords remain in the line sequence. Stated for two canonical
single-space lines sharing one key. -/
theorem c2_duplicate_first_wins (k v1 v2 : List Char)
    (hk : CanonKey k) (h1 : CanonVal v1) (h2 : CanonVal v2) :
    (parse emptyProperties (unlines [mkCanonLine k v1, mkCanonLine k v2])).map
        (fun st => (get st k, st.lines.length)) = .ok (v1, 2) := by
  have hc : ∀ p ∈ [(k, v1), (k, v2)], CanonKey p.1 ∧ CanonVal p.2 := by
    intro p hp
    rcases List.mem_cons.mp hp with rfl | hp2
    · exact ⟨hk, h1⟩
    · rcases List.mem_cons.mp hp2 with rfl | hp3
      · exact ⟨hk, h2⟩
      · simp at hp3
  have hsplit := splitLines_unlines [mkCanonLine k v1, mkCanonLine k v2] (by
    intro l hl
    rcases List.mem_cons.mp hl with rfl | hl2
    · exact mkCanonLine_no_newline hk h1
    · rcases List.mem_cons.mp hl2 with rfl | hl3
      · exact mkCanonLine_no_newline hk h2
      · simp at hl3)
  have hpp : preprocess [mkCanonLine k v1, mkCanonLine k v2] =
      .ok [mkCanonLine k v1, mkCanonLine k v2] := by
    apply preprocessAux_passthrough
    intro l hl
    rcases List.mem_cons.mp hl with rfl | hl2
    · exact canon_not_template hk
    · rcases List.mem_cons.mp hl2 with rfl | hl3
      · exact canon_not_template hk
      · simp at hl3
  have hrun := parseLines_canon_run [(k, v1), (k, v2)] hc [] [] []
  have hb : buildProps [] [(k, v1), (k, v2)] = [(k, ⟨k, v1, false⟩)] := by
    simp [buildProps, insertIfAbsent, alookup]
  rw [parse, hsplit, hpp]
  rw [show emptyProperties = (⟨[], [], []⟩ : Properties) from rfl]
  simp only [Except.map]
  rw [show ([(k, v1), (k, v2)].map fun p => mkCanonLine p.1 p.2) =
    [mkCanonLine k v1, mkCanonLine k v2] from rfl] at hrun
  rw [hrun]
  simp [get, hb, alookup]

/-- C2 witness: the amended first-occurrence-wins theorem evaluated on
the concrete keys and values of the counterexample input. -/
theorem c2_duplicate_first_wins_witness :
    (parse emptyProperties
        (unlines [mkCanonLine "k".toList "1".toList, mkCanonLine "k".toList "2".toList])).map
        (fun st => (get st "k".toList, st.lines.length)) = .ok ("1".toList, 2) :=
  c2_duplicate_first_wins _ _ _ (by decide) (by decide) (by decide)

/-- C4 counterexample: parsing the spec's three-line multi-line example
(`multiline = a \` / 12 spaces `b \` / 12 spaces `c`) yields
get("multiline") = "ab c", not "abc": the middle continuation piece,
after its trailing backslash is dropped, is "b ", which ends neither in
a quote nor in a backslash, so it is appended without the right-trim and
the space before its backslash survives. -/
theorem c4_multiline_counterexample :
    (parse emptyProperties
        ("multiline = a \\\n            b \\\n            c\n".toList)).map
        (fun st => get st "multiline".toList) = .ok ("ab c".toList) ∧
      ¬("ab c".toList = "abc".toList) :=
  ⟨rfl, by decide⟩

/-- C4 (amended): the three-line input `multiline = a \` /
`            b \` / `            c` parses so that get("multiline")
returns exactly "ab c": the first piece is right-trimmed to "a" after
the backslash is removed, the middle piece contributes "b " verbatim
(no trim, since after dropping its backslash it does not end in a quote
or backslash), and the final line contributes "c". -/
theorem c4_multiline_join :
    (parse emptyProperties
        ("multiline = a \\\n            b \\\n            c\n".toList)).map
        (fun st => get st "multiline".toList) = .ok ("ab c".toList) := rfl

/-- C3 counterexample: for the input consisting of the single unmatched
line `}`, parse succeeds and leaves the prefix stack empty (the pop is a
guarded no-op), but text() FAILS in BOTH modes instead of emitting the
line: the BlockEnd case decrements prefixDepth to -1 and the
negative-length indentation string construction throws length_error. -/
theorem c3_unmatched_counterexample :
    (parse emptyProperties ['\x7d', '\n']).map
        (fun st => (st.prefixStack, text st false, text st true)) =
      .ok ([], .error .lengthError, .error .lengthError) := rfl

/-- C3 (amended): an unmatched `}` is indeed tolerated by PARSE as a
silent no-op — the line is recorded as a BlockEnd and popping the empty
prefix stack leaves it unchanged, with no error — but the claim's second
half fails: text() in both modes raises an error on such a document,
because rendering a BlockEnd at prefix depth 0 requests an indentation
string of negative length. -/
theorem c3_unmatched_tolerated_parse_but_text_fails
    (l : List Char) (rest : List (List Char)) (cp : List Char) (st : Properties)
    (hcl : classify l = .BlockEnd) (hstack : st.prefixStack = []) :
    parseLines (l :: rest) .normal cp st =
        parseLines rest .normal cp
          { st with lines := st.lines ++ [{ line := l, linetype := .BlockEnd }] } ∧
      (∀ (props : List (List Char × PropEntry)) (pretty : Bool) (e : Line)
          (rest2 : List Line) (prev : Option LineType), e.linetype = .BlockEnd →
        textAux props pretty (e :: rest2) prev 0 = .error .lengthError) := by
  constructor
  · have hdl : st.prefixStack.dropLast = st.prefixStack := by rw [hstack]; rfl
    simp [parseLines, hcl, hdl]
  · intro props pretty e rest2 prev he
    simp only [textAux, he]
    rfl

/-- C3 witness: the amended theorem applied to the concrete line `}` on
an empty document, and its text-failure half applied to the resulting
BlockEnd record at depth 0. -/
theorem c3_unmatched_witness :
    parseLines [['\x7d']] .normal [] emptyProperties =
        parseLines [] .normal []
          { emptyProperties with lines := [{ line := ['\x7d'], linetype := .BlockEnd }] } ∧
      textAux [] false [{ line := ['\x7d'], linetype := .BlockEnd }] none 0 =
        .error .lengthError := by
  have h := c3_unmatched_tolerated_parse_but_text_fails ['\x7d'] [] [] emptyProperties rfl rfl
  exact ⟨h.1, h.2 [] false _ [] none rfl⟩

theorem trim1_head (l : List Char) :
    (trim1 l).head? = (find_first_not_of WS l).map (fun i => l.getD i ' ') := by
  cases hf : find_first_not_of WS l with
  | none => simp [trim1, trim2, trimleft2, hf, trimright2, find_last_not_of]
  | some i =>
    obtain ⟨c, t, hdrop, hcnot, hgd, -⟩ := ffno_drop hf
    have hex : ∃ j, find_last_not_of WS (c :: t) = some j := by
      cases hg : find_last_not_of WS t with
      | some j => exact ⟨j + 1, by simp [find_last_not_of, hg]⟩
      | none => exact ⟨0, by simp [find_last_not_of, hg, hcnot]⟩
    obtain ⟨j, hj⟩ := hex
    have hgd2 : l[i]?.getD ' ' = c := by
      have h0 := hgd ' '
      simpa [List.getD_eq_getElem?_getD] using h0
    simp [trim1, trim2, trimleft2, trimright2, hf, hdrop, hj, List.take_succ_cons, hgd2]

/-- C9 counterexample: the line `{ foo` is classified BlockStart by
parse even though its trimmed text is `{ foo`, not exactly the single
character `{`: isBlockStart inspects only the first non-whitespace
character. -/
theorem c9_blockstart_counterexample :
    classify ("\x7b foo".toList) = .BlockStart ∧
      ¬(trim1 ("\x7b foo".toList) = ['\x7b']) :=
  ⟨rfl, by decide⟩

/-- C9 (amended): during parsing a line is classified BlockStart exactly
when its first non-whitespace character — the head of its trimmed text —
is `{`, and BlockEnd exactly when it is `}`; any further content on the
line is ignored by the classification, so `{ foo` IS a block delimiter. -/
theorem c9_block_classification (l : List Char) :
    (classify l = .BlockStart ↔ (trim1 l).head? = some '\x7b') ∧
      (classify l = .BlockEnd ↔ (trim1 l).head? = some '\x7d') := by
  rw [trim1_head l]
  cases hf : find_first_not_of WS l with
  | none =>
    have hempty : isEmptyLine l = true := by
      simp only [isEmptyLine, List.all_eq_true, decide_eq_true_eq]
      exact ffno_eq_none_iff.mp hf
    have hcls : classify l = .Empty := by
      simp [classify, isComment, hf, hempty]
    simp [hcls]
  | some i =>
    obtain ⟨c, t, hdrop, hcnot, hgd, hmem⟩ := ffno_drop hf
    have hgd2 : l[i]?.getD ' ' = c := by
      have h0 := hgd ' '
      simpa [List.getD_eq_getElem?_getD] using h0
    have hne : isEmptyLine l = false := by
      simp only [isEmptyLine, List.all_eq_false, decide_eq_true_eq]
      exact ⟨c, hmem, hcnot⟩
    have hic : isComment l = ((c == '#') || (c == '!')) := by
      simp [isComment, hf, hgd2]
    have hbs : isBlockStart l = (c == '\x7b') := by
      simp [isBlockStart, hf, hgd2]
    have hbe : isBlockEnd l = (c == '\x7d') := by
      simp [isBlockEnd, hf, hgd2]
    by_cases h1 : c = '#'
    · simp [classify, hic, h1, hgd2]
    by_cases h2 : c = '!'
    · simp [classify, hic, h1, h2, hgd2]
    by_cases h3 : c = '\x7b'
    · simp [classify, hic, hne, hbs, h1, h2, h3, hgd2]
    by_cases h4 : c = '\x7d'
    · simp [classify, hic, hne, hbs, hbe, h1, h2, h3, h4, hgd2]
    · simp [classify, hic, hne, hbs, hbe, h1, h2, h3, h4, hgd2]

theorem parseLines_props_mono (ls : List (List Char)) :
    ∀ (mode : ScanMode) (cp : List Char) (st : Properties) (k : List Char) (p : PropEntry),
      alookup k st.props = some p →
        alookup k (parseLines ls mode cp st).props = some p := by
  induction ls with
  | nil =>
    intro mode cp st k p h
    cases mode with
    | normal => simpa [parseLines] using h
    | multi pk acc => simpa [parseLines] using insertIfAbsent_preserves pk _ h
  | cons l rest ih =>
    intro mode cp st k p h
    cases mode with
    | multi pk acc =>
      simp only [parseLines]
      split
      · exact ih _ _ _ _ _ h
      · exact ih _ _ _ _ _ (insertIfAbsent_preserves _ _ h)
    | normal =>
      simp only [parseLines]
      cases hcl : classify l
      case Comment => exact ih _ _ _ _ _ h
      case Empty => exact ih _ _ _ _ _ h
      case BlockStart => exact ih _ _ _ _ _ h
      case BlockEnd => exact ih _ _ _ _ _ h
      all_goals
        repeat' split
      all_goals
        apply ih
      all_goals
        first
          | exact h
          | exact insertIfAbsent_preserves _ _ h

theorem parseLines_bare_key_step (l : List Char) (rest : List (List Char))
    (cp : List Char) (st : Properties)
    (hcl : classify l = .Property) (hna : find_first_of ['='] l = none) :
    parseLines (l :: rest) .normal cp st =
      parseLines rest .normal (trim1 l)
        { st with
            lines := st.lines ++ [bareKeyRec st.prefixStack l],
            props := insertIfAbsent st.props (prependPrefix st.prefixStack (trim1 l))
              ⟨prependPrefix st.prefixStack (trim1 l), [], false⟩ } := by
  simp only [parseLines, hcl, hna]
  rfl

/-- C10: after parsing input whose next line is a bare key (a Property
line with no `=` anywhere), the bare key itself exists as a property in
its own right: hasKey of the key, qualified by the enclosing prefix
stack, returns true and get returns the empty string — whatever lines
follow, in particular a `{` block defining prefixed keys inside it. -/
theorem c10_bare_key_property (l : List Char) (rest : List (List Char))
    (cp : List Char) (st : Properties)
    (hcl : classify l = .Property)
    (hna : find_first_of ['='] l = none)
    (habs : alookup (prependPrefix st.prefixStack (trim1 l)) st.props = none) :
    hasKey (parseLines (l :: rest) .normal cp st)
        (prependPrefix st.prefixStack (trim1 l)) = true ∧
      get (parseLines (l :: rest) .normal cp st)
        (prependPrefix st.prefixStack (trim1 l)) = [] := by
  rw [parseLines_bare_key_step l rest cp st hcl hna]
  have hlk : alookup (prependPrefix st.prefixStack (trim1 l))
      (insertIfAbsent st.props (prependPrefix st.prefixStack (trim1 l))
        ⟨prependPrefix st.prefixStack (trim1 l), [], false⟩) =
      some ⟨prependPrefix st.prefixStack (trim1 l), [], false⟩ := by
    unfold insertIfAbsent
    rw [habs]
    simp only [Option.isSome_none, Bool.false_eq_true, if_false]
    rw [alookup_append_right _ habs]
    simp [alookup]
  have hm := parseLines_props_mono rest .normal (trim1 l)
    { st with
        lines := st.lines ++ [bareKeyRec st.prefixStack l],
        props := insertIfAbsent st.props (prependPrefix st.prefixStack (trim1 l))
          ⟨prependPrefix st.prefixStack (trim1 l), [], false⟩ }
    (prependPrefix st.prefixStack (trim1 l))
    ⟨prependPrefix st.prefixStack (trim1 l), [], false⟩ hlk
  exact ⟨by simp [hasKey, hm], by simp [get, hm]⟩

/-- C10 witness: the bare key `server` followed by a `{ ... }` prefix
block; after parsing, hasKey("server") is true and get("server") is the
empty string (and the block's inner key parses as `server.port`). -/
theorem c10_bare_key_property_witness :
    hasKey (parseLines ["server".toList, "\x7b".toList, "port = 1".toList, "\x7d".toList]
        .normal [] emptyProperties) ("server".toList) = true ∧
      get (parseLines ["server".toList, "\x7b".toList, "port = 1".toList, "\x7d".toList]
        .normal [] emptyProperties) ("server".toList) = [] :=
  c10_bare_key_property "server".toList ["\x7b".toList, "port = 1".toList, "\x7d".toList]
    [] emptyProperties rfl rfl rfl

theorem templateVariable_not_start {l : List Char} (h : isTemplateVariable l = true) :
    isTemplateStart l = false := by
  cases hf : find_first_not_of WS l with
  | none => simp [isTemplateStart, hf]
  | some i =>
    simp only [isTemplateVariable, hf, beq_iff_eq] at h
    have h2 : l[i]?.getD ' ' = '%' := by
      simpa [List.getD_eq_getElem?_getD] using h
    simp [isTemplateStart, hf, h2]

/-- C5: a `%name%` reference whose name has no definition in the
definitions mapping at that point makes preprocess fail synchronously
with UndefinedTemplate; and whenever preprocess fails, parse returns
exactly that error and produces no document at all — parse runs
preprocess to completion before appending any LineRecord or creating
any Property, so no partial document can exist. -/
theorem c5_undefined_template (vars : List (List Char × List (List Char)))
    (l : List Char) (rest : List (List Char))
    (hv : isTemplateVariable l = true)
    (hlen : ¬((trim1 l).length < 3))
    (hlk : alookup (((trim1 l).drop 1).take ((trim1 l).length - 2)) vars = none) :
    preprocessAux (l :: rest) (.normal vars) =
        .error (.undefinedTemplate (((trim1 l).drop 1).take ((trim1 l).length - 2))) ∧
      (∀ (st : Properties) (input : List Char) (e : PPError),
        preprocess (splitLines input) = .error e → parse st input = .error e) := by
  constructor
  · have hlk2 := hlk
    rw [List.drop_one] at hlk2
    simp [preprocessAux, templateVariable_not_start hv, hv, hlen, hlk2]
  · intro st input e he
    rw [parse, he]
    rfl

/-- C5 witness: the single undefined reference `%x%` aborts preprocess
with UndefinedTemplate "x", and parse of the raw input `%x%\n` on an
empty document returns that error with no document produced. -/
theorem c5_undefined_template_witness :
    preprocessAux ["%x%".toList] (.normal []) = .error (.undefinedTemplate ['x']) ∧
      parse emptyProperties ("%x%\n".toList) = .error (.undefinedTemplate ['x']) := by
  have h := c5_undefined_template [] "%x%".toList [] rfl (by decide) rfl
  exact ⟨h.1, h.2 emptyProperties ("%x%\n".toList) _ h.1⟩

/-- C6 counterexample: a close tag with a DIFFERENT name terminates a
definition block. Preprocessing `<a>` / `x` / `</b>` / `%a%` succeeds
and expands to the single line `x`: the `</b>` line ended the `<a>`
block (had it not, the block would never close and preprocess would
fail with the missing-closing-tag error), and the captured body is
exactly the one line `x`. -/
theorem c6_template_end_counterexample :
    preprocess ["<a>".toList, "x".toList, "</b>".toList, "%a%".toList] =
        .ok ["x".toList] ∧
      isTemplateEnd ("</b>".toList) = true :=
  ⟨rfl, rfl⟩

/-- C6 (amended): a definition block opened by `<name>` captures
subsequent raw lines verbatim until the FIRST line whose leading
non-whitespace characters are `<` followed by `/` — isTemplateEnd does
not inspect the tag name, so ANY close tag (matching name or not)
terminates the block, and the lines captured so far are stored under
`name`. -/
theorem c6_template_capture (vars : List (List Char × List (List Char)))
    (name : List Char) (acc : List (List Char))
    (pre : List (List Char)) (l : List Char) (rest : List (List Char))
    (hpre : ∀ x ∈ pre, isTemplateEnd x = false)
    (hl : isTemplateEnd l = true) :
    preprocessAux (pre ++ l :: rest) (.capture vars name acc) =
      preprocessAux rest (.normal ((name, acc ++ pre) :: vars)) := by
  induction pre generalizing acc with
  | nil => simp [preprocessAux, hl]
  | cons x pre ih =>
    have hx : isTemplateEnd x = false := hpre x (by simp)
    rw [List.cons_append]
    simp only [preprocessAux, hx, Bool.false_eq_true, if_false]
    rw [ih (acc ++ [x]) (fun y hy => hpre y (List.mem_cons_of_mem x hy))]
    simp

/-- C6 witness: capturing for template `a` with the body line `x`
pending, the very next line `</b>` — a close tag for a different name —
ends the capture and stores ["x"] under "a". -/
theorem c6_template_capture_witness :
    preprocessAux ["x".toList, "</b>".toList] (.capture [] "a".toList []) =
      preprocessAux [] (.normal [("a".toList, ["x".toList])]) := by
  have h := c6_template_capture [] "a".toList [] ["x".toList] "</b>".toList []
    (by decide) rfl
  exact h

theorem alookup_updateProp_self {m : List (List Char × PropEntry)} {key : List Char}
    {p : PropEntry} (value : List Char) (h : alookup key m = some p) :
    alookup key (updateProp m key value) = some ⟨p.key, value, true⟩ := by
  induction m with
  | nil => simp [alookup] at h
  | cons e m ih =>
    by_cases he : e.1 = key
    · simp [alookup, updateProp, he] at h ⊢
      rw [← h]
    · simp [alookup, updateProp, he] at h ⊢
      exact ih h

theorem alookup_updateProp_ne {m : List (List Char × PropEntry)} {key k2 : List Char}
    (value : List Char) (h : ¬(k2 = key)) :
    alookup k2 (updateProp m key value) = alookup k2 m := by
  induction m with
  | nil => rfl
  | cons e m ih =>
    by_cases he : e.1 = key
    · have hne : ¬(e.1 = k2) := by rw [he]; exact fun hh => h hh.symm
      have hks : ¬(key = k2) := fun hh => h hh.symm
      simp [alookup, updateProp, he, hne, hks]
    · by_cases he2 : e.1 = k2
      · simp [alookup, updateProp, he, he2, h]
      · simp [alookup, updateProp, he, he2, ih]

/-- C7: put(key, value) on a document lacking the key returns the empty
string, appends exactly ONE new Property line record (putRec: raw text
`key = value`, default formatting), adds the Property with its modified
flag set, leaves every pre-existing line record, property entry and the
prefix stack unchanged, and the new record renders in original mode as
`key = value` (escape applied to the value, the identity for ordinary
values). put on an existing key returns the previous value and updates
only that entry's value and modified flag, with the line sequence and
all other entries untouched. -/
theorem c7_put (st : Properties) (key value : List Char) :
    (alookup key st.props = none →
        (put st key value).1 = [] ∧
        (put st key value).2.lines = st.lines ++ [putRec key value] ∧
        alookup key (put st key value).2.props = some ⟨key, value, true⟩ ∧
        (∀ k2, ¬(k2 = key) →
          alookup k2 (put st key value).2.props = alookup k2 st.props) ∧
        (put st key value).2.prefixStack = st.prefixStack ∧
        textAux (put st key value).2.props false [putRec key value] none 0 =
          .ok (key ++ ' ' :: '=' :: ' ' :: (escape value ++ ['\n']))) ∧
      (∀ p, alookup key st.props = some p →
        (put st key value).1 = p.value ∧
        (put st key value).2.lines = st.lines ∧
        alookup key (put st key value).2.props = some ⟨p.key, value, true⟩ ∧
        (∀ k2, ¬(k2 = key) →
          alookup k2 (put st key value).2.props = alookup k2 st.props)) := by
  constructor
  · intro habs
    have hlk2 : alookup key (st.props ++ [(key, ⟨key, value, true⟩)]) =
        some ⟨key, value, true⟩ := by
      rw [alookup_append_right _ habs]
      simp [alookup]
    refine ⟨?_, ?_, ?_, ?_, ?_, ?_⟩
    · simp [put, habs]
    · simp [put, habs, putRec]
    · simp only [put, habs]
      exact hlk2
    · intro k2 hk2
      simp only [put, habs]
      cases hc : alookup k2 st.props with
      | some q => exact alookup_append_left _ hc
      | none =>
        rw [alookup_append_right _ hc]
        have hks : ¬(key = k2) := fun hh => hk2 hh.symm
        simp [alookup, hks]
    · simp [put, habs]
    · simp only [put, habs]
      rw [show textAux (st.props ++ [(key, ⟨key, value, true⟩)]) false
          [putRec key value] none 0 =
        Except.ok (([] ++ key ++ [' '] ++
          '=' :: ([' '] ++ escape value ++ [])) ++ '\n' :: []) from by
          simp only [textAux, putRec, hlk2]
          rfl]
      exact congrArg Except.ok (by simp)
  · intro p hp
    refine ⟨?_, ?_, ?_, ?_⟩
    · simp [put, hp]
    · simp [put, hp]
    · simp only [put, hp]
      exact alookup_updateProp_self value hp
    · intro k2 hk2
      simp only [put, hp]
      exact alookup_updateProp_ne value hk2

/-- C7 witness: on a document holding only `a = 1`, putting the fresh
key `new.key` returns "" and installs it with modified set; putting the
existing key `a` returns the previous value "1" and leaves the line
sequence untouched. -/
theorem c7_put_witness :
    ((put (⟨[("a".toList, ⟨"a".toList, "1".toList, false⟩)], [], []⟩ : Properties)
          "new.key".toList "v".toList).1 = [] ∧
        alookup "new.key".toList
          (put (⟨[("a".toList, ⟨"a".toList, "1".toList, false⟩)], [], []⟩ : Properties)
            "new.key".toList "v".toList).2.props = some ⟨"new.key".toList, "v".toList, true⟩) ∧
      ((put (⟨[("a".toList, ⟨"a".toList, "1".toList, false⟩)], [], []⟩ : Properties)
          "a".toList "2".toList).1 = "1".toList ∧
        (put (⟨[("a".toList, ⟨"a".toList, "1".toList, false⟩)], [], []⟩ : Properties)
          "a".toList "2".toList).2.lines = []) := by
  have h1 := (c7_put (⟨[("a".toList, ⟨"a".toList, "1".toList, false⟩)], [], []⟩ : Properties)
    "new.key".toList "v".toList).1 rfl
  have h2 := (c7_put (⟨[("a".toList, ⟨"a".toList, "1".toList, false⟩)], [], []⟩ : Properties)
    "a".toList "2".toList).2 ⟨"a".toList, "1".toList, false⟩ rfl
  exact ⟨⟨h1.1, h1.2.2.1⟩, ⟨h2.1, h2.2.1⟩⟩

/-- C8: getBool(key, default) returns the default when the key is
absent; when the key is present it returns true exactly when the stored
value equals, case-sensitively, one of the strings "true", "1" or
"yes" — any other value, including "no", "0" and "false", yields
false. -/
theorem c8_getBool (st : Properties) (key : List Char) (defaultValue : Bool) :
    (hasKey st key = false → getBool st key defaultValue = defaultValue) ∧
      (hasKey st key = true →
        (getBool st key defaultValue = true ↔
          (get st key = "true".toList ∨ get st key = "1".toList ∨
            get st key = "yes".toList))) := by
  constructor
  · intro h
    simp [getBool, h]
  · intro h
    simp [getBool, h, or_assoc]

/-- C8 witness: a stored "yes" makes getBool true, a stored "no" makes
it false, and an absent key returns the supplied default. -/
theorem c8_getBool_witness :
    getBool (⟨[("x".toList, ⟨"x".toList, "yes".toList, false⟩)], [], []⟩ : Properties)
        "x".toList false = true ∧
      getBool (⟨[("x".toList, ⟨"x".toList, "no".toList, false⟩)], [], []⟩ : Properties)
        "x".toList false = false ∧
      getBool emptyProperties "x".toList true = true := by
  refine ⟨?_, ?_, ?_⟩
  · exact ((c8_getBool
      (⟨[("x".toList, ⟨"x".toList, "yes".toList, false⟩)], [], []⟩ : Properties)
      "x".toList false).2 rfl).mpr (Or.inr (Or.inr rfl))
  · have hiff := (c8_getBool
      (⟨[("x".toList, ⟨"x".toList, "no".toList, false⟩)], [], []⟩ : Properties)
      "x".toList false).2 rfl
    cases hgb : getBool (⟨[("x".toList, ⟨"x".toList, "no".toList, false⟩)], [], []⟩ :
        Properties) "x".toList false with
    | false => rfl
    | true =>
      rcases hiff.mp hgb with h | h | h
      · exact absurd h (by decide)
      · exact absurd h (by decide)
      · exact absurd h (by decide)
  · exact (c8_getBool emptyProperties "x".toList true).1 rfl

end Cxxprops
